import Mathlib

/-!
Verification of the revision-quiz answer-matching engine and score tracker,
shallow-embedded from the repository's `main.py` (terminal front end) and
`webui.py` (web front end).  Strings are modelled as `List Char`; Python
floats as `ℚ`.
-/

/-- Python-style whitespace test, ASCII fragment (space, tab, LF, VT, FF, CR).
Models both `str.strip`'s and the regex class `\s`'s behaviour on the
characters this development evaluates. -/
def isSpace (c : Char) : Bool :=
  c.toNat = 32 || c.toNat = 9 || c.toNat = 10 || c.toNat = 11 ||
    c.toNat = 12 || c.toNat = 13

/-- ASCII decimal digit. -/
def isDigitCh (c : Char) : Bool :=
  48 ≤ c.toNat && c.toNat ≤ 57

/-- ASCII lowercase letter. -/
def isLowerCh (c : Char) : Bool :=
  97 ≤ c.toNat && c.toNat ≤ 122

/-- The character class kept by `re.sub(r"[^0-9a-z\s]", " ", s)` in
`normalize_text`. -/
def isKeep (c : Char) : Bool :=
  isDigitCh c || isLowerCh c || isSpace c

/-- Model of Python `str.lower` on the ASCII range (characters outside
`A`-`Z` are returned unchanged). -/
def pyLower (c : Char) : Char :=
  if 65 ≤ c.toNat ∧ c.toNat ≤ 90 then Char.ofNat (c.toNat + 32) else c

/-- The typographic-quote replacements performed by `normalize_text`
(`s.replace("’", "'")` etc.). -/
def replaceQuotes (c : Char) : Char :=
  if c = '’' ∨ c = '‘' then '\''
  else if c = '“' ∨ c = '”' then '"'
  else c

/-- Remove a trailing whitespace run (the right half of Python `str.strip`). -/
def stripEnd : List Char → List Char
  | [] => []
  | c :: cs =>
    let r := stripEnd cs
    if r.isEmpty && isSpace c then [] else c :: r

/-- Python `str.strip()`: drop leading and trailing whitespace. -/
def stripWs (l : List Char) : List Char :=
  stripEnd (l.dropWhile isSpace)

/-- Worker for `collapseWs`: the flag records whether the previous character
was part of a whitespace run that has already emitted its single space. -/
def collapseGo : Bool → List Char → List Char
  | _, [] => []
  | inRun, c :: cs =>
    if isSpace c then
      if inRun then collapseGo true cs else ' ' :: collapseGo true cs
    else c :: collapseGo false cs

/-- `re.sub(r"\s+", " ", s)`: replace every whitespace run by one space. -/
def collapseWs (l : List Char) : List Char :=
  collapseGo false l

/-- `normalize_text` from `main.py`.  NFKC normalisation is modelled as the
identity: every string this development evaluates is NFKC-fixed ASCII, and
the idempotence and shape results below depend only on the later stages. -/
def normalize_text (s : List Char) : List Char :=
  let s1 := s.map replaceQuotes
  let s2 := (stripWs s1).map pyLower
  let s3 := s2.map fun c => if isKeep c then c else ' '
  stripWs (collapseWs s3)

/-- `normalize_text` including the `if s is None: return ""` guard. -/
def normalize_text_py : Option (List Char) → List Char
  | none => []
  | some s => normalize_text s

/-- Worker for `splitWs`: `acc` holds the current token, reversed. -/
def splitGo : List Char → List Char → List (List Char)
  | [], acc => if acc.isEmpty then [] else [acc.reverse]
  | c :: cs, acc =>
    if isSpace c then
      if acc.isEmpty then splitGo cs [] else acc.reverse :: splitGo cs []
    else splitGo cs (c :: acc)

/-- Python `str.split()` with no separator: whitespace-delimited tokens,
leading/trailing/repeated whitespace ignored. -/
def splitWs (l : List Char) : List (List Char) :=
  splitGo l []

/-- The character class of the regex `[a-zA-Z0-9]` in `normalize_option`. -/
def isAlnumRe (c : Char) : Bool :=
  isDigitCh c || isLowerCh c || (65 ≤ c.toNat && c.toNat ≤ 90)

/-- `normalize_option` from `main.py`: normalize, then if the first
whitespace-delimited token matches `^([a-zA-Z0-9])[\.\)]?$` return the bare
captured character, else return the normalized text.  (On empty normalized
text the Python code returns `""` before indexing `parts[0]`, so the
unreachable empty-split arm returns `[]`.) -/
def normalize_option (s : List Char) : List Char :=
  let n := normalize_text s
  if n.isEmpty then []
  else
    match splitWs n with
    | [] => []
    | first :: _ =>
      match first with
      | [c] => if isAlnumRe c then [c] else n
      | [c, d] => if isAlnumRe c && (d = '.' || d = ')') then [c] else n
      | _ => n

/-- The `_WORD_NUMS` table from `main.py`. -/
def wordNums : List (List Char × Nat) :=
  [("zero".data, 0), ("one".data, 1), ("two".data, 2), ("three".data, 3),
   ("four".data, 4), ("five".data, 5), ("six".data, 6), ("seven".data, 7),
   ("eight".data, 8), ("nine".data, 9), ("ten".data, 10),
   ("eleven".data, 11), ("twelve".data, 12), ("thirteen".data, 13),
   ("fourteen".data, 14), ("fifteen".data, 15), ("sixteen".data, 16),
   ("seventeen".data, 17), ("eighteen".data, 18), ("nineteen".data, 19),
   ("twenty".data, 20), ("thirty".data, 30), ("forty".data, 40),
   ("fifty".data, 50), ("sixty".data, 60), ("seventy".data, 70),
   ("eighty".data, 80), ("ninety".data, 90)]

/-- Dictionary lookup `_WORD_NUMS[w]` / `w in _WORD_NUMS`. -/
def lookupWord (w : List Char) : Option Nat :=
  (wordNums.find? fun p => decide (p.1 = w)).map Prod.snd

/-- The token-consuming loop of `word_number_to_int`; `total` is the running
sum.  A token outside `_WORD_NUMS` aborts with `none`; a `val ≥ 20` token
followed by a `< 10` token is consumed as a pair (e.g. "twenty one"). -/
def wnGo : List (List Char) → Nat → Option Nat
  | [], total => some total
  | [w], total =>
    match lookupWord w with
    | none => none
    | some val => some (total + val)
  | w :: w2 :: rest2, total =>
    match lookupWord w with
    | none => none
    | some val =>
      match lookupWord w2 with
      | some v2 =>
        if 20 ≤ val ∧ v2 < 10 then wnGo rest2 (total + val + v2)
        else wnGo (w2 :: rest2) (total + val)
      | none => none

/-- `word_number_to_int` from `main.py`. -/
def word_number_to_int (s : List Char) : Option Nat :=
  let n := normalize_text s
  if n.isEmpty then none
  else wnGo (splitWs n) 0

/-- Numeric value of a digit string. -/
def digitsVal (l : List Char) : Nat :=
  l.foldl (fun a c => a * 10 + (c.toNat - 48)) 0

/-- An exact decimal value `num / 10 ^ exp`: the representation used here for
the finite values Python `float` produces from the quiz's short literals
(exact, so the `1e-9` tolerance comparison is faithful). -/
structure Dec where
  num : Int
  exp : Nat
  deriving DecidableEq, Repr

/-- The rational value of a `Dec`. -/
def Dec.toRat (d : Dec) : ℚ :=
  (d.num : ℚ) / 10 ^ d.exp

/-- Optional mantissa sign: `1` or `-1` plus the remaining characters. -/
def mantSign (t : List Char) : Int × List Char :=
  match t with
  | [] => (1, [])
  | c :: r =>
    if c = '+' then (1, r)
    else if c = '-' then (-1, r)
    else (1, c :: r)

/-- Optional exponent sign: `true` for non-negative. -/
def expSign (r : List Char) : Bool × List Char :=
  match r with
  | [] => (true, [])
  | c :: rr =>
    if c = '+' then (true, rr)
    else if c = '-' then (false, rr)
    else (true, c :: rr)

/-- Exponent continuation of `pyFloat`: after the mantissa, accept either the
end of input or `e`/`E`, an optional sign, and a non-empty digit string. -/
def parseExp (m : Dec) (l : List Char) : Option Dec :=
  match l with
  | [] => some m
  | c :: r =>
    if c = 'e' ∨ c = 'E' then
      let sr := expSign r
      let ed := sr.2.takeWhile isDigitCh
      if ed.isEmpty || !(sr.2.drop ed.length).isEmpty then none
      else if sr.1 then some ⟨m.num * 10 ^ digitsVal ed, m.exp⟩
      else some ⟨m.num, m.exp + digitsVal ed⟩
    else none

/-- Continuation of float parsing after the integer digits `ip`: `rest` is
what follows them — nothing, a `.` with fractional digits, or an exponent,
each handed on to `parseExp`. -/
def pyAfterInt (ip rest : List Char) (sgn : Int) : Option Dec :=
  match rest with
  | [] => if ip.isEmpty then none else some ⟨sgn * digitsVal ip, 0⟩
  | c :: r2 =>
    if c = '.' then
      if ip.isEmpty && (r2.takeWhile isDigitCh).isEmpty then none
      else
        parseExp
          ⟨sgn * (digitsVal ip * 10 ^ (r2.takeWhile isDigitCh).length +
              digitsVal (r2.takeWhile isDigitCh)),
            (r2.takeWhile isDigitCh).length⟩
          (r2.drop (r2.takeWhile isDigitCh).length)
    else if ip.isEmpty then none
    else parseExp ⟨sgn * digitsVal ip, 0⟩ (c :: r2)

/-- Digits-and-dot part of a Python float literal, after the sign: `u` is
the unsigned remainder, `sgn` the sign. -/
def pyFloatCore (u : List Char) (sgn : Int) : Option Dec :=
  pyAfterInt (u.takeWhile isDigitCh) (u.drop (u.takeWhile isDigitCh).length) sgn

/-- Model of Python `float(s)` on finite decimal literals: surrounding
whitespace ignored, optional sign, digits with an optional fractional part,
optional exponent.  The special literals `inf`/`infinity`/`nan` and digit
underscores are outside this model (no claim evaluates them, and
`normalize_text` output cannot contain `_`, `+`, `-` or `.`). -/
def pyFloat (s : List Char) : Option Dec :=
  pyFloatCore (mantSign (stripWs s)).2 (mantSign (stripWs s)).1

/-- `is_numeric` from `main.py`: normalize, try `float`, then fall back to
the word-number parser (whose result `float(wn)` is the integer `wn`). -/
def is_numeric (s : List Char) : Option Dec :=
  let s_norm := normalize_text s
  if s_norm.isEmpty then none
  else
    match pyFloat s_norm with
    | some v => some v
    | none =>
      match word_number_to_int s_norm with
      | some wn => some ⟨wn, 0⟩
      | none => none

/-- Python substring test `n in h`. -/
def containsSub (n : List Char) : List Char → Bool
  | [] => n.isEmpty
  | c :: t => n.isPrefixOf (c :: t) || containsSub n t

/-- The `abs(ua_num - ca_num) < 1e-9` comparison of matching rule 3, on
`Option` results of `is_numeric` (rule 3 fires only when both parse).
Cross-multiplied integer form of `|a - b| < 1 / 10 ^ 9`; see
`numEq_iff_toRat` for the equivalence with the rational statement. -/
def numEq : Option Dec → Option Dec → Bool
  | some a, some b =>
    decide ((a.num * 10 ^ b.exp - b.num * 10 ^ a.exp).natAbs * 10 ^ 9 <
      10 ^ (a.exp + b.exp))
  | _, _ => false

/-- One iteration of the canonical-answer loop in `ask_question`: apply
rules 1-5 in order to the canonical answer `ca_raw` and report the first
rule that accepts (`none` when all five decline).  The similarity backend
`fuzzy` is a parameter because `_fuzzy_ratio` selects rapidfuzz or difflib
by runtime availability; rules 1-4 do not consult it. -/
def tryCa (fuzzy : List Char → List Char → ℚ) (user_raw ca_raw : List Char) :
    Option Nat :=
  let user_norm := normalize_text user_raw
  let user_option := normalize_option user_raw
  let ca_norm := normalize_text ca_raw
  let ca_option := normalize_option ca_raw
  if !user_norm.isEmpty && !ca_norm.isEmpty && user_norm = ca_norm then some 1
  else if !user_option.isEmpty && !ca_option.isEmpty && user_option = ca_option then
    some 2
  else if numEq (is_numeric user_raw) (is_numeric ca_raw) then some 3
  else if !ca_norm.isEmpty && containsSub ca_norm user_norm then some 4
  else if !ca_norm.isEmpty && !user_norm.isEmpty &&
      decide (88 ≤ fuzzy user_norm ca_norm) then some 5
  else none

/-- The full matching loop of `ask_question`: canonical answers tried in
order, first acceptance breaks out with `matched = ca_raw`; exhaustion
rejects with `matched = none`. -/
def matchAnswer (fuzzy : List Char → List Char → ℚ) (user_raw : List Char) :
    List (List Char) → Bool × Option (List Char)
  | [] => (false, none)
  | ca :: rest =>
    match tryCa fuzzy user_raw ca with
    | some _ => (true, some ca)
    | none => matchAnswer fuzzy user_raw rest

/-- A per-topic entry of the performance store. -/
structure TopicStats where
  attempted : Nat
  correct : Nat
  deriving DecidableEq, Repr

/-- The per-topic bookkeeping in `ask_question` (and, identically, in
`webui.quiz`): create `{attempted: 0, correct: 0}` when the topic is new,
then `attempted += 1` and `correct += 1` iff the answer was accepted. -/
def recordStats (prev : Option TopicStats) (wasCorrect : Bool) : TopicStats :=
  let s := prev.getD ⟨0, 0⟩
  { attempted := s.attempted + 1
    correct := s.correct + (if wasCorrect then 1 else 0) }

/-- The store for one session key, as a map from topic to entry;
`record` is the dictionary update performed per answered question. -/
def record (store : List Char → Option TopicStats) (topic : List Char)
    (wasCorrect : Bool) : List Char → Option TopicStats :=
  fun t => if t = topic then some (recordStats (store topic) wasCorrect) else store t

/-- `get_accuracy` from `main.py`. -/
def get_accuracy (data : TopicStats) : ℚ :=
  if data.attempted = 0 then 0 else (data.correct : ℚ) / (data.attempted : ℚ)

/-- The web front end's accept test (`webui.py` `quiz`, POST branch):
each canonical answer is lowercased and stripped, and the response is
accepted iff some canonical answer is a substring of the lowercased,
stripped raw user answer. -/
def webAccepts (user : List Char) (cas : List (List Char)) : Bool :=
  cas.any fun ca => containsSub (stripWs (ca.map pyLower)) (stripWs (user.map pyLower))

/-- Terminal front end, one question: verdict plus updated topic entry. -/
def ask_question_update (fuzzy : List Char → List Char → ℚ) (user : List Char)
    (cas : List (List Char)) (prev : Option TopicStats) : TopicStats :=
  recordStats prev (matchAnswer fuzzy user cas).1

/-- Web front end, one question: verdict plus updated topic entry. -/
def web_quiz_update (user : List Char) (cas : List (List Char))
    (prev : Option TopicStats) : TopicStats :=
  recordStats prev (webAccepts user cas)

/-- A character `normalize_text` can emit inside a token: ASCII digit or
lowercase letter. -/
def isNormTok (c : Char) : Bool :=
  isDigitCh c || isLowerCh c

/-- Shape automaton for normalized text.  `normShape afterSp l` holds when
`l` is a valid continuation given that a space (or the start of the string)
immediately precedes: tokens of digits/lowercase letters separated by single
spaces, no trailing space. -/
def normShape : Bool → List Char → Bool
  | afterSp, [] => !afterSp
  | afterSp, c :: cs =>
    if isNormTok c then normShape false cs
    else if c = ' ' then !afterSp && normShape true cs
    else false

/-- Fully normalized shape: empty, or token text with single separating
spaces and no leading/trailing space. -/
def normalized (l : List Char) : Bool :=
  l.isEmpty || normShape true l

/-- Like `normShape` but a trailing space is allowed (the shape of
`collapseWs` output before the final strip). -/
def chainShape : Bool → List Char → Bool
  | _, [] => true
  | afterSp, c :: cs =>
    if isNormTok c then chainShape false cs
    else if c = ' ' then !afterSp && chainShape true cs
    else false

example : normalize_text "don’t".data = "don t".data := by decide
example : normalize_text "  Hello,   World!! ".data = "hello world".data := by decide
example : normalize_text "".data = "".data := by decide
example : normalize_option "A)".data = "a".data := by decide
example : normalize_option "1.".data = "1".data := by decide
example : word_number_to_int "twenty one".data = some 21 := by decide
example : word_number_to_int "twenty banana".data = none := by decide
example : is_numeric "3".data = some ⟨3, 0⟩ := by decide
example : is_numeric "three".data = some ⟨3, 0⟩ := by decide
example : is_numeric "3.5".data = none := by decide
example : is_numeric "-5".data = some ⟨5, 0⟩ := by decide
example : is_numeric "2e3".data = some ⟨2000, 0⟩ := by decide
example : is_numeric "1 2".data = none := by decide
example : ∀ f, matchAnswer f "3".data ["three".data] = (true, some "three".data) := by
  intro f
  have : tryCa f "3".data "three".data = some 3 := by
    unfold tryCa
    rw [if_neg (by decide), if_neg (by decide), if_pos (by decide)]
  simp [matchAnswer, this]
example : webAccepts "3".data ["three".data] = false := by decide

theorem isNormTok_toNat {c : Char} (h : isNormTok c = true) :
    (48 ≤ c.toNat ∧ c.toNat ≤ 57) ∨ (97 ≤ c.toNat ∧ c.toNat ≤ 122) := by
  simpa [isNormTok, isDigitCh, isLowerCh] using h

theorem not_isSpace_of_isNormTok {c : Char} (h : isNormTok c = true) :
    isSpace c = false := by
  have hr := isNormTok_toNat h
  simp only [isSpace]
  simp only [Bool.or_eq_false_iff, decide_eq_false_iff_not]
  omega

theorem replaceQuotes_eq_self {c : Char} (h : c.toNat < 8216) :
    replaceQuotes c = c := by
  unfold replaceQuotes
  split_ifs with h1 h2
  · rcases h1 with rfl | rfl <;> exact absurd h (by decide)
  · rcases h2 with rfl | rfl <;> exact absurd h (by decide)
  · rfl

theorem pyLower_eq_self {c : Char} (h : ¬(65 ≤ c.toNat ∧ c.toNat ≤ 90)) :
    pyLower c = c :=
  if_neg h

theorem map_eq_self_of {α : Type} {f : α → α} :
    ∀ l : List α, (∀ c ∈ l, f c = c) → l.map f = l
  | [], _ => rfl
  | c :: cs, h => by
    simp only [List.map_cons, h c (by simp)]
    rw [map_eq_self_of cs fun d hd => h d (by simp [hd])]

theorem normalize_text_def (s : List Char) :
    normalize_text s =
      stripWs (collapseWs (((stripWs (s.map replaceQuotes)).map pyLower).map
        fun c => if isKeep c then c else ' ')) :=
  rfl

theorem normShape_cons (b : Bool) (c : Char) (cs : List Char) :
    normShape b (c :: cs) =
      if isNormTok c then normShape false cs
      else if c = ' ' then !b && normShape true cs
      else false :=
  rfl

theorem chainShape_cons (b : Bool) (c : Char) (cs : List Char) :
    chainShape b (c :: cs) =
      if isNormTok c then chainShape false cs
      else if c = ' ' then !b && chainShape true cs
      else false :=
  rfl

theorem collapseGo_cons (b : Bool) (c : Char) (cs : List Char) :
    collapseGo b (c :: cs) =
      if isSpace c then
        (if b then collapseGo true cs else ' ' :: collapseGo true cs)
      else c :: collapseGo false cs :=
  rfl

theorem stripEnd_cons (c : Char) (cs : List Char) :
    stripEnd (c :: cs) =
      if (stripEnd cs).isEmpty && isSpace c then [] else c :: stripEnd cs :=
  rfl

theorem normShape_space_false {cs : List Char} :
    normShape true (' ' :: cs) = false := by
  rw [normShape_cons, if_neg (by decide), if_pos rfl]
  simp

theorem normShape_mem :
    ∀ (l : List Char) (b : Bool), normShape b l = true →
      ∀ c ∈ l, isNormTok c = true ∨ c = ' '
  | [], _, _, c, hc => by cases hc
  | c :: cs, b, h, d, hd => by
    rw [normShape_cons] at h
    by_cases h1 : isNormTok c = true
    · rw [if_pos h1] at h
      rcases List.mem_cons.1 hd with rfl | hd'
      · exact Or.inl h1
      · exact normShape_mem cs false h d hd'
    · rw [if_neg h1] at h
      by_cases h2 : c = ' '
      · rw [if_pos h2] at h
        rcases List.mem_cons.1 hd with rfl | hd'
        · exact Or.inr h2
        · exact normShape_mem cs true (by simpa using h.symm ▸ (Bool.and_elim_right h)) d hd'
      · rw [if_neg h2] at h
        cases h

theorem stripEnd_eq_self_of_normShape :
    ∀ (l : List Char) (b : Bool), normShape b l = true → stripEnd l = l
  | [], _, _ => rfl
  | c :: cs, b, h => by
    rw [normShape_cons] at h
    rw [stripEnd_cons]
    by_cases h1 : isNormTok c = true
    · rw [if_pos h1] at h
      rw [stripEnd_eq_self_of_normShape cs false h,
        not_isSpace_of_isNormTok h1]
      simp
    · rw [if_neg h1] at h
      by_cases h2 : c = ' '
      · rw [if_pos h2] at h
        have h3 : normShape true cs = true := Bool.and_elim_right h
        have hne : cs ≠ [] := by
          intro e
          rw [e] at h3
          exact absurd h3 (by decide)
        rw [stripEnd_eq_self_of_normShape cs true h3]
        rw [if_neg (by simp [hne])]
      · rw [if_neg h2] at h
        cases h

theorem collapseGo_eq_self_of_normShape :
    ∀ l : List Char,
      (normShape false l = true → collapseGo false l = l) ∧
      (normShape true l = true → collapseGo true l = l)
  | [] => ⟨fun _ => rfl, fun _ => rfl⟩
  | c :: cs => by
    have ih := collapseGo_eq_self_of_normShape cs
    constructor <;> intro h <;> rw [normShape_cons] at h <;>
      rw [collapseGo_cons]
    · by_cases h1 : isNormTok c = true
      · rw [if_pos h1] at h
        rw [if_neg (by simp [not_isSpace_of_isNormTok h1]), ih.1 h]
      · rw [if_neg h1] at h
        by_cases h2 : c = ' '
        · subst h2
          have h3 : normShape true cs = true := by simpa using h
          rw [if_pos (show isSpace ' ' = true from by decide)]
          rw [if_neg (show ¬(false = true) from by decide)]
          rw [ih.2 h3]
        · rw [if_neg h2] at h
          cases h
    · by_cases h1 : isNormTok c = true
      · rw [if_pos h1] at h
        rw [if_neg (by simp [not_isSpace_of_isNormTok h1]), ih.1 h]
      · rw [if_neg h1] at h
        by_cases h2 : c = ' '
        · rw [if_pos h2] at h
          exact absurd h (by simp)
        · rw [if_neg h2] at h
          cases h

theorem dropWhile_eq_self_of_normShape {l : List Char}
    (h : normShape true l = true) : l.dropWhile isSpace = l := by
  cases l with
  | nil => rfl
  | cons c cs =>
    rw [normShape_cons] at h
    by_cases h1 : isNormTok c = true
    · simp [List.dropWhile_cons, not_isSpace_of_isNormTok h1]
    · rw [if_neg h1] at h
      by_cases h2 : c = ' '
      · rw [if_pos h2] at h
        exact absurd h (by simp)
      · rw [if_neg h2] at h
        cases h

theorem normalize_text_eq_self {l : List Char} (h : normalized l = true) :
    normalize_text l = l := by
  cases l with
  | nil => rfl
  | cons c cs =>
    have hs : normShape true (c :: cs) = true := by
      simpa [normalized] using h
    have hmem := normShape_mem (c :: cs) true hs
    have hchar : ∀ d ∈ c :: cs,
        replaceQuotes d = d ∧ pyLower d = d ∧
          (if isKeep d then d else ' ') = d := by
      intro d hd
      rcases hmem d hd with hn | rfl
      · have hr := isNormTok_toNat hn
        refine ⟨replaceQuotes_eq_self (by omega), pyLower_eq_self (by omega), ?_⟩
        rw [if_pos]
        simp only [isKeep, isNormTok] at hn ⊢
        simp only [Bool.or_eq_true] at hn ⊢
        tauto
      · exact ⟨by decide, by decide, by decide⟩
    have hstrip : stripWs (c :: cs) = c :: cs := by
      unfold stripWs
      rw [dropWhile_eq_self_of_normShape hs,
        stripEnd_eq_self_of_normShape (c :: cs) true hs]
    rw [normalize_text_def]
    rw [map_eq_self_of _ fun d hd => (hchar d hd).1]
    rw [hstrip]
    rw [map_eq_self_of _ fun d hd => (hchar d hd).2.1]
    rw [map_eq_self_of _ fun d hd => (hchar d hd).2.2]
    have hsf : normShape false (c :: cs) = true := by
      rw [normShape_cons] at hs ⊢
      by_cases h1 : isNormTok c = true
      · rwa [if_pos h1] at hs ⊢
      · rw [if_neg h1] at hs ⊢
        by_cases h2 : c = ' '
        · rw [if_pos h2] at hs
          simp at hs
        · rwa [if_neg h2] at hs ⊢
    have hcw : collapseWs (c :: cs) = c :: cs :=
      (collapseGo_eq_self_of_normShape (c :: cs)).1 hsf
    rw [hcw]
    exact hstrip

theorem chainShape_collapseGo :
    ∀ l : List Char, (∀ c ∈ l, isNormTok c = true ∨ isSpace c = true) →
      chainShape true (collapseGo true l) = true ∧
        chainShape false (collapseGo false l) = true
  | [], _ => ⟨rfl, rfl⟩
  | c :: cs, h => by
    have htail : ∀ d ∈ cs, isNormTok d = true ∨ isSpace d = true :=
      fun d hd => h d (by simp [hd])
    have ih := chainShape_collapseGo cs htail
    by_cases hsp : isSpace c = true
    · constructor
      · rw [collapseGo_cons, if_pos hsp, if_pos rfl]
        exact ih.1
      · rw [collapseGo_cons, if_pos hsp, if_neg (by simp)]
        rw [chainShape_cons, if_neg (by decide), if_pos rfl]
        simpa using ih.1
    · have hn : isNormTok c = true := by
        rcases h c (by simp) with h' | h'
        · exact h'
        · exact absurd h' hsp
      constructor <;>
        · rw [collapseGo_cons, if_neg (by simp [hsp])]
          rw [chainShape_cons, if_pos hn]
          exact ih.2

theorem chainShape_dropWhile {l : List Char} (h : chainShape false l = true) :
    l.dropWhile isSpace = [] ∨
      ∃ c cs, l.dropWhile isSpace = c :: cs ∧ isNormTok c = true ∧
        chainShape false cs = true := by
  cases l with
  | nil => exact Or.inl rfl
  | cons c cs =>
    rw [chainShape_cons] at h
    by_cases h1 : isNormTok c = true
    · rw [if_pos h1] at h
      refine Or.inr ⟨c, cs, ?_, h1, h⟩
      simp [List.dropWhile_cons, not_isSpace_of_isNormTok h1]
    · rw [if_neg h1] at h
      by_cases h2 : c = ' '
      · subst h2
        rw [if_pos rfl] at h
        rw [List.dropWhile_cons, if_pos (by decide)]
        have h3 : chainShape true cs = true := by simpa using h
        cases cs with
        | nil => exact Or.inl rfl
        | cons d ds =>
          rw [chainShape_cons] at h3
          by_cases h4 : isNormTok d = true
          · rw [if_pos h4] at h3
            refine Or.inr ⟨d, ds, ?_, h4, h3⟩
            simp [List.dropWhile_cons, not_isSpace_of_isNormTok h4]
          · rw [if_neg h4] at h3
            by_cases h5 : d = ' '
            · rw [if_pos h5] at h3
              exact absurd h3 (by simp)
            · rw [if_neg h5] at h3
              cases h3
      · rw [if_neg h2] at h
        cases h

theorem stripEnd_chainShape :
    ∀ (l : List Char) (b : Bool), chainShape b l = true →
      stripEnd l = [] ∨ normShape b (stripEnd l) = true
  | [], _, _ => Or.inl rfl
  | c :: cs, b, h => by
    rw [chainShape_cons] at h
    rw [stripEnd_cons]
    by_cases h1 : isNormTok c = true
    · rw [if_pos h1] at h
      rw [if_neg (by simp [not_isSpace_of_isNormTok h1])]
      refine Or.inr ?_
      rw [normShape_cons, if_pos h1]
      rcases stripEnd_chainShape cs false h with he | hn
      · rw [he]; rfl
      · exact hn
    · rw [if_neg h1] at h
      by_cases h2 : c = ' '
      · subst h2
        have hb : b = false := by
          by_contra hb
          rw [Bool.not_eq_false] at hb
          rw [hb, if_pos rfl] at h
          exact absurd h (by simp)
        subst hb
        rw [if_pos rfl] at h
        have h3 : chainShape true cs = true := by simpa using h
        rcases stripEnd_chainShape cs true h3 with he | hn
        · rw [he]
          rw [if_pos (show (List.isEmpty [] && isSpace ' ') = true from by decide)]
          exact Or.inl rfl
        · have hne : stripEnd cs ≠ [] := by
            intro e
            rw [e] at hn
            exact absurd hn (by decide)
          rw [if_neg (by simp [hne])]
          refine Or.inr ?_
          rw [normShape_cons, if_neg (by decide), if_pos rfl]
          simpa using hn
      · rw [if_neg h2] at h
        cases h

theorem normalized_normalize_text (s : List Char) :
    normalized (normalize_text s) = true := by
  rw [normalize_text_def]
  set s3 := ((stripWs (s.map replaceQuotes)).map pyLower).map
    (fun c => if isKeep c then c else ' ') with hs3
  have hc : ∀ c ∈ s3, isNormTok c = true ∨ isSpace c = true := by
    intro c hc
    rw [hs3] at hc
    rcases List.mem_map.1 hc with ⟨d, _, rfl⟩
    by_cases hk : isKeep d = true
    · rw [if_pos hk]
      simp only [isKeep, Bool.or_eq_true] at hk
      rcases hk with hk | hk
      · rcases hk with hk | hk <;> simp [isNormTok, hk]
      · exact Or.inr hk
    · rw [if_neg hk]
      exact Or.inr (by decide)
  have hch : chainShape false (collapseGo false s3) = true :=
    (chainShape_collapseGo s3 hc).2
  show normalized (stripWs (collapseWs s3)) = true
  unfold stripWs collapseWs
  rcases chainShape_dropWhile hch with he | ⟨c, cs, he, hn, hcs⟩
  · rw [he]; rfl
  · rw [he, stripEnd_cons]
    rw [if_neg (by simp [not_isSpace_of_isNormTok hn])]
    rcases stripEnd_chainShape cs false hcs with h0 | h1
    · rw [h0]
      simp [normalized, normShape, hn]
    · simp only [normalized, List.isEmpty_cons, Bool.false_or]
      rw [normShape_cons, if_pos hn]
      exact h1

/-- C6: for every string `s`, `normalize_text (normalize_text s)` equals
`normalize_text s` — normalization is idempotent. -/
theorem normalize_text_idempotent (s : List Char) :
    normalize_text (normalize_text s) = normalize_text s :=
  normalize_text_eq_self (normalized_normalize_text s)

theorem matchAnswer_cons (fuzzy : List Char → List Char → ℚ)
    (u ca : List Char) (rest : List (List Char)) :
    matchAnswer fuzzy u (ca :: rest) =
      match tryCa fuzzy u ca with
      | some _ => (true, some ca)
      | none => matchAnswer fuzzy u rest :=
  rfl

theorem tryCa_def (fuzzy : List Char → List Char → ℚ) (u ca : List Char) :
    tryCa fuzzy u ca =
      if !(normalize_text u).isEmpty && !(normalize_text ca).isEmpty &&
          (normalize_text u = normalize_text ca) then some 1
      else if !(normalize_option u).isEmpty && !(normalize_option ca).isEmpty &&
          (normalize_option u = normalize_option ca) then some 2
      else if numEq (is_numeric u) (is_numeric ca) then some 3
      else if !(normalize_text ca).isEmpty &&
          containsSub (normalize_text ca) (normalize_text u) then some 4
      else if !(normalize_text ca).isEmpty && !(normalize_text u).isEmpty &&
          decide (88 ≤ fuzzy (normalize_text u) (normalize_text ca)) then some 5
      else none :=
  rfl

theorem normalize_option_def (s : List Char) :
    normalize_option s =
      if (normalize_text s).isEmpty then []
      else
        match splitWs (normalize_text s) with
        | [] => []
        | first :: _ =>
          match first with
          | [c] => if isAlnumRe c then [c] else normalize_text s
          | [c, d] =>
            if isAlnumRe c && (d = '.' || d = ')') then [c]
            else normalize_text s
          | _ => normalize_text s :=
  rfl

theorem numEq_iff (a b : Dec) :
    numEq (some a) (some b) = true ↔
      |a.toRat - b.toRat| < 1 / 1000000000 := by
  simp only [numEq, decide_eq_true_eq]
  have h10 : (0 : ℚ) < 10 ^ a.exp * 10 ^ b.exp := by positivity
  have hsub : a.toRat - b.toRat =
      ((a.num * 10 ^ b.exp - b.num * 10 ^ a.exp : ℤ) : ℚ) /
        (10 ^ a.exp * 10 ^ b.exp) := by
    rw [Dec.toRat, Dec.toRat]
    push_cast
    field_simp
    ring
  rw [hsub, abs_div, abs_of_pos h10,
    div_lt_div_iff₀ h10 (by norm_num : (0 : ℚ) < 1000000000), one_mul]
  rw [← Int.cast_abs, ← Nat.cast_natAbs (α := ℚ)]
  rw [← Nat.cast_lt (α := ℚ)]
  push_cast [pow_add]
  exact Iff.rfl

/-- C2: canonical answers are tried in the order given; the first rule that
accepts short-circuits the loop and `matched` is the original text of the
canonical answer that triggered acceptance; if no canonical answer satisfies
any rule the response is rejected with `matched = none`. -/
theorem matcher_priority_chain (fuzzy : List Char → List Char → ℚ)
    (user ca : List Char) (rest cas : List (List Char)) :
    (tryCa fuzzy user ca ≠ none →
      matchAnswer fuzzy user (ca :: rest) = (true, some ca)) ∧
    (tryCa fuzzy user ca = none →
      matchAnswer fuzzy user (ca :: rest) = matchAnswer fuzzy user rest) ∧
    ((∀ c ∈ cas, tryCa fuzzy user c = none) →
      matchAnswer fuzzy user cas = (false, none)) := by
  refine ⟨?_, ?_, ?_⟩
  · intro h
    rw [matchAnswer_cons]
    rcases he : tryCa fuzzy user ca with _ | r
    · exact absurd he h
    · rfl
  · intro h
    rw [matchAnswer_cons, h]
  · intro h
    induction cas with
    | nil => rfl
    | cons c cs ih =>
      rw [matchAnswer_cons, h c (by simp)]
      exact ih fun d hd => h d (by simp [hd])

/-- C2 witness: acceptance at a concrete head and rejection on exhaustion. -/
theorem matcher_priority_chain_witness :
    matchAnswer (fun _ _ => 0) "3".data ["three".data, "x".data] =
      (true, some "three".data) ∧
    matchAnswer (fun _ _ => 0) "q".data ["three".data] = (false, none) :=
  ⟨(matcher_priority_chain (fun _ _ => 0) "3".data "three".data ["x".data]
      []).1 (by decide),
   (matcher_priority_chain (fun _ _ => 0) "q".data "z".data [] ["three".data]
      ).2.2 (by decide)⟩

/-- C3: whenever `is_numeric` succeeds on both the user answer and the
canonical answer with values closer than `1e-9`, the canonical answer is
accepted by rule 3 unless rule 1 or rule 2 accepted it first; in particular
`match("3", ["three"])` is accepted. -/
theorem numeric_rule_fires (fuzzy : List Char → List Char → ℚ)
    (user ca : List Char) (ua cv : Dec)
    (h1 : is_numeric user = some ua) (h2 : is_numeric ca = some cv)
    (h3 : |ua.toRat - cv.toRat| < 1 / 1000000000) :
    (tryCa fuzzy user ca = some 1 ∨ tryCa fuzzy user ca = some 2 ∨
      tryCa fuzzy user ca = some 3) ∧
    matchAnswer fuzzy "3".data ["three".data] = (true, some "three".data) := by
  constructor
  · have hnum : numEq (is_numeric user) (is_numeric ca) = true := by
      rw [h1, h2, numEq_iff]
      exact h3
    rw [tryCa_def]
    split_ifs with c1 c2
    · exact Or.inl rfl
    · exact Or.inr (Or.inl rfl)
    · exact Or.inr (Or.inr rfl)
  · have h : tryCa fuzzy "3".data "three".data = some 3 := by
      rw [tryCa_def]
      rw [if_neg (by decide), if_neg (by decide), if_pos (by decide)]
    rw [matchAnswer_cons, h]

/-- C3 witness: the `"3"` vs `"three"` instance. -/
theorem numeric_rule_fires_witness :
    (tryCa (fun _ _ => 0) "3".data "three".data = some 1 ∨
      tryCa (fun _ _ => 0) "3".data "three".data = some 2 ∨
      tryCa (fun _ _ => 0) "3".data "three".data = some 3) ∧
    matchAnswer (fun _ _ => 0) "3".data ["three".data] =
      (true, some "three".data) :=
  numeric_rule_fires (fun _ _ => 0) "3".data "three".data ⟨3, 0⟩ ⟨3, 0⟩
    (by decide) (by decide) (by norm_num [Dec.toRat])

/-- C8: a canonical answer whose normalized form is empty can never be
accepted through rule 1 (exact), rule 2 (option), rule 4 (containment) or
rule 5 (fuzzy); only rule 3 (numeric) could ever accept it. -/
theorem empty_canonical_only_numeric (fuzzy : List Char → List Char → ℚ)
    (user ca : List Char) (h : normalize_text ca = []) :
    tryCa fuzzy user ca ≠ some 1 ∧ tryCa fuzzy user ca ≠ some 2 ∧
      tryCa fuzzy user ca ≠ some 4 ∧ tryCa fuzzy user ca ≠ some 5 := by
  have hopt : normalize_option ca = [] := by
    rw [normalize_option_def, h]
    simp
  rw [tryCa_def, h, hopt]
  simp only [List.isEmpty_nil, Bool.not_true, Bool.and_false, Bool.false_and,
    Bool.and_self, Bool.false_eq_true, if_false]
  by_cases hn : numEq (is_numeric user) (is_numeric ca) = true
  · simp [hn]
  · simp [hn]

/-- C8 witness: an all-punctuation canonical answer. -/
theorem empty_canonical_only_numeric_witness :
    tryCa (fun _ _ => 0) "x".data "!!!".data ≠ some 1 ∧
      tryCa (fun _ _ => 0) "x".data "!!!".data ≠ some 2 ∧
      tryCa (fun _ _ => 0) "x".data "!!!".data ≠ some 4 ∧
      tryCa (fun _ _ => 0) "x".data "!!!".data ≠ some 5 :=
  empty_canonical_only_numeric (fun _ _ => 0) "x".data "!!!".data (by decide)

/-- C1: the front ends do not behave identically, because the web front end
does not route through the Answer Matcher: on user response `"3"` against
canonical answers `["three"]`, the terminal matcher accepts (numeric rule)
and records `{attempted: 1, correct: 1}` on a fresh topic, while the web
check rejects and records `{attempted: 1, correct: 0}`. -/
theorem web_terminal_divergence :
    (∀ fuzzy : List Char → List Char → ℚ,
      matchAnswer fuzzy "3".data ["three".data] =
        (true, some "three".data)) ∧
    webAccepts "3".data ["three".data] = false ∧
    (∀ fuzzy : List Char → List Char → ℚ,
      ask_question_update fuzzy "3".data ["three".data] none = ⟨1, 1⟩) ∧
    web_quiz_update "3".data ["three".data] none = ⟨1, 0⟩ ∧
    (⟨1, 1⟩ : TopicStats) ≠ ⟨1, 0⟩ := by
  have hm : ∀ fuzzy : List Char → List Char → ℚ,
      matchAnswer fuzzy "3".data ["three".data] =
        (true, some "three".data) := by
    intro fuzzy
    have h : tryCa fuzzy "3".data "three".data = some 3 := by
      rw [tryCa_def]
      rw [if_neg (by decide), if_neg (by decide), if_pos (by decide)]
    rw [matchAnswer_cons, h]
  refine ⟨hm, by decide, ?_, by decide, by decide⟩
  intro fuzzy
  unfold ask_question_update
  rw [hm fuzzy]
  rfl

theorem recordStats_le {prev : Option TopicStats} (w : Bool)
    (h : ∀ s, prev = some s → s.correct ≤ s.attempted) :
    (recordStats prev w).correct ≤ (recordStats prev w).attempted := by
  cases prev with
  | none => cases w <;> decide
  | some s =>
    have hs := h s rfl
    unfold recordStats
    cases w <;> simp <;> omega

/-- C5: every topic entry satisfies `correct ≤ attempted` and the recording
operation preserves this; a fresh entry starts from `{attempted: 0,
correct: 0}`, `attempted` is always incremented and `correct` is incremented
iff the answer was accepted, so a fresh correct answer yields `{1, 1}` and a
fresh incorrect one `{1, 0}`. -/
theorem record_invariant_and_counts (store : List Char → Option TopicStats)
    (topic : List Char) (w : Bool)
    (hinv : ∀ t s, store t = some s → s.correct ≤ s.attempted) :
    (∀ t s, record store topic w t = some s → s.correct ≤ s.attempted) ∧
    (∀ prev : Option TopicStats,
      (recordStats prev w).attempted = (prev.getD ⟨0, 0⟩).attempted + 1 ∧
      (recordStats prev w).correct =
        (prev.getD ⟨0, 0⟩).correct + (if w then 1 else 0)) ∧
    (store topic = none →
      record store topic w topic = some (recordStats none w)) ∧
    recordStats none true = ⟨1, 1⟩ ∧ recordStats none false = ⟨1, 0⟩ := by
  refine ⟨?_, fun prev => ⟨rfl, rfl⟩, ?_, rfl, rfl⟩
  · intro t s h
    unfold record at h
    by_cases ht : t = topic
    · rw [if_pos ht] at h
      injection h with h
      rw [← h]
      exact recordStats_le w fun u hu => hinv topic u hu
    · rw [if_neg ht] at h
      exact hinv t s h
  · intro h0
    unfold record
    rw [if_pos rfl, h0]

/-- C5 witness: recording on an empty store. -/
theorem record_invariant_witness :
    recordStats none true = ⟨1, 1⟩ ∧
      record (fun _ => none) "algebra".data true "algebra".data =
        some (recordStats none true) :=
  ⟨(record_invariant_and_counts (fun _ => none) "algebra".data true
      fun _ _ h => Option.noConfusion h).2.2.2.1,
   (record_invariant_and_counts (fun _ => none) "algebra".data true
      fun _ _ h => Option.noConfusion h).2.2.1 rfl⟩

/-- C9: `get_accuracy` returns `correct / attempted` when `attempted > 0`
and `0` when `attempted = 0`; in particular `{attempted: 0, correct: 0}`
gives `0` and `{attempted: 4, correct: 3}` gives `3/4`. -/
theorem get_accuracy_total (s : TopicStats) :
    (s.attempted = 0 → get_accuracy s = 0) ∧
    (s.attempted ≠ 0 →
      get_accuracy s = (s.correct : ℚ) / (s.attempted : ℚ)) ∧
    get_accuracy ⟨0, 0⟩ = 0 ∧ get_accuracy ⟨4, 3⟩ = 3 / 4 := by
  refine ⟨fun h => by simp [get_accuracy, h],
    fun h => by simp [get_accuracy, h], by simp [get_accuracy], ?_⟩
  norm_num [get_accuracy]

/-- C9 witness: both concrete stats records. -/
theorem get_accuracy_total_witness :
    get_accuracy ⟨0, 0⟩ = 0 ∧ get_accuracy ⟨4, 3⟩ = 3 / 4 :=
  ⟨(get_accuracy_total ⟨0, 0⟩).1 rfl, (get_accuracy_total ⟨4, 3⟩).2.2.2⟩

theorem wnGo_nil (total : Nat) : wnGo [] total = some total :=
  rfl

theorem wnGo_one (w : List Char) (total : Nat) :
    wnGo [w] total =
      match lookupWord w with
      | none => none
      | some val => some (total + val) :=
  rfl

theorem wnGo_cons2 (w w2 : List Char) (rest2 : List (List Char))
    (total : Nat) :
    wnGo (w :: w2 :: rest2) total =
      match lookupWord w with
      | none => none
      | some val =>
        match lookupWord w2 with
        | some v2 =>
          if 20 ≤ val ∧ v2 < 10 then wnGo rest2 (total + val + v2)
          else wnGo (w2 :: rest2) (total + val)
        | none => none :=
  rfl

theorem wnGo_none_of_bad :
    ∀ (parts : List (List Char)) (total : Nat),
      (∃ w ∈ parts, lookupWord w = none) → wnGo parts total = none
  | [], _, h => by
    rcases h with ⟨w, hw, _⟩
    cases hw
  | [w], total, h => by
    rcases h with ⟨v, hv, hnone⟩
    rcases List.mem_singleton.1 hv with rfl
    rw [wnGo_one, hnone]
  | w :: w2 :: rest2, total, h => by
    rcases h with ⟨v, hv, hnone⟩
    rw [wnGo_cons2]
    cases hw : lookupWord w with
    | none => rfl
    | some val =>
      cases hw2 : lookupWord w2 with
      | none => rfl
      | some v2 =>
        have hv' : v = w ∨ v = w2 ∨ v ∈ rest2 := by simpa using hv
        rcases hv' with rfl | rfl | hmem
        · exact absurd hnone (by simp [hw])
        · exact absurd hnone (by simp [hw2])
        · show (if 20 ≤ val ∧ v2 < 10 then wnGo rest2 (total + val + v2)
            else wnGo (w2 :: rest2) (total + val)) = none
          split_ifs
          · exact wnGo_none_of_bad rest2 _ ⟨v, hmem, hnone⟩
          · exact wnGo_none_of_bad (w2 :: rest2) _ ⟨v, by simp [hmem], hnone⟩

theorem word_number_to_int_def (s : List Char) :
    word_number_to_int s =
      if (normalize_text s).isEmpty then none
      else wnGo (splitWs (normalize_text s)) 0 :=
  rfl

/-- C7: any token of the normalized input outside the `_WORD_NUMS`
vocabulary makes `word_number_to_int` yield `none`, and a two-token input
"tens-word ones-word" with the tens value at least 20 and the ones value
below 10 yields their sum (e.g. "twenty one" ↦ 21). -/
theorem word_number_vocab (s : List Char) :
    ((∃ w ∈ splitWs (normalize_text s), lookupWord w = none) →
      word_number_to_int s = none) ∧
    (∀ t o vt vo, splitWs (normalize_text s) = [t, o] →
      lookupWord t = some vt → lookupWord o = some vo →
      20 ≤ vt → vo < 10 → word_number_to_int s = some (vt + vo)) := by
  constructor
  · intro h
    rw [word_number_to_int_def]
    by_cases he : (normalize_text s).isEmpty = true
    · rw [if_pos he]
    · rw [if_neg he]
      exact wnGo_none_of_bad _ 0 h
  · intro t o vt vo hsplit ht ho h20 h10
    rw [word_number_to_int_def]
    have hne : ¬((normalize_text s).isEmpty = true) := by
      intro hc
      rw [List.isEmpty_iff.1 hc] at hsplit
      cases hsplit
    rw [if_neg hne, hsplit, wnGo_cons2, ht, ho]
    show (if 20 ≤ vt ∧ vo < 10 then wnGo [] (0 + vt + vo)
      else wnGo [o] (0 + vt)) = some (vt + vo)
    rw [if_pos ⟨h20, h10⟩, wnGo_nil, Nat.zero_add]

/-- C7 witness: "twenty one" parses to 21 and "twenty banana" aborts. -/
theorem word_number_vocab_witness :
    word_number_to_int "twenty one".data = some 21 ∧
      word_number_to_int "twenty banana".data = none :=
  ⟨(word_number_vocab "twenty one".data).2 "twenty".data "one".data 20 1
      (by decide) (by decide) (by decide) (by decide) (by decide),
   (word_number_vocab "twenty banana".data).1
      ⟨"banana".data, by decide, by decide⟩⟩

theorem char_ne {c d : Char} (h : c.toNat ≠ d.toNat) : c ≠ d :=
  fun e => h (congrArg Char.toNat e)

theorem digit_toNat {c : Char} (h : isDigitCh c = true) :
    48 ≤ c.toNat ∧ c.toNat ≤ 57 := by
  simpa [isDigitCh] using h

theorem digit_not_space {c : Char} (h : isDigitCh c = true) :
    isSpace c = false := by
  have hr := digit_toNat h
  simp only [isSpace, Bool.or_eq_false_iff, decide_eq_false_iff_not]
  omega

theorem digit_isNormTok {c : Char} (h : isDigitCh c = true) :
    isNormTok c = true := by
  simp [isNormTok, h]

theorem digit_fix {c : Char} (h : isDigitCh c = true) :
    replaceQuotes c = c ∧ pyLower c = c ∧ (if isKeep c then c else ' ') = c := by
  have hr := digit_toNat h
  exact ⟨replaceQuotes_eq_self (by omega), pyLower_eq_self (by omega),
    if_pos (by simp [isKeep, h])⟩

theorem mem_of_getLast?_eq {l : List Char} {c : Char}
    (h : l.getLast? = some c) : c ∈ l := by
  rcases List.mem_getLast?_eq_getLast (Option.mem_def.mpr h) with ⟨hne, heq⟩
  rw [heq]
  exact List.getLast_mem hne

theorem takeWhile_all {p : Char → Bool} :
    ∀ l : List Char, (∀ c ∈ l, p c = true) → l.takeWhile p = l
  | [], _ => rfl
  | c :: cs, h => by
    rw [List.takeWhile_cons, if_pos (h c (by simp))]
    rw [takeWhile_all cs fun d hd => h d (by simp [hd])]

theorem takeWhile_append_stop {p : Char → Bool} :
    ∀ (a : List Char) (x : Char) (b : List Char),
      (∀ c ∈ a, p c = true) → p x = false →
      (a ++ x :: b).takeWhile p = a
  | [], x, b, _, hx => by
    rw [List.nil_append, List.takeWhile_cons, if_neg (by simp [hx])]
  | c :: a', x, b, h, hx => by
    rw [List.cons_append, List.takeWhile_cons, if_pos (h c (by simp))]
    rw [takeWhile_append_stop a' x b (fun d hd => h d (by simp [hd])) hx]

theorem stripEnd_eq_self :
    ∀ l : List Char, (∀ c, l.getLast? = some c → isSpace c = false) →
      stripEnd l = l
  | [], _ => rfl
  | [c], h => by
    have hc : isSpace c = false := h c rfl
    rw [stripEnd_cons, if_neg (by simp [hc])]
    rfl
  | c :: d :: ds, h => by
    have hrest : stripEnd (d :: ds) = d :: ds :=
      stripEnd_eq_self (d :: ds) fun e he =>
        h e (by rw [List.getLast?_cons_cons]; exact he)
    rw [stripEnd_cons, hrest, if_neg (by simp)]

theorem stripWs_eq_self {l : List Char}
    (h1 : ∀ c, l.head? = some c → isSpace c = false)
    (h2 : ∀ c, l.getLast? = some c → isSpace c = false) :
    stripWs l = l := by
  unfold stripWs
  have hd : l.dropWhile isSpace = l := by
    cases l with
    | nil => rfl
    | cons c cs => rw [List.dropWhile_cons, if_neg (by simp [h1 c rfl])]
  rw [hd, stripEnd_eq_self l h2]

theorem collapseGo_no_space :
    ∀ (l : List Char) (b : Bool), (∀ c ∈ l, isSpace c = false) →
      collapseGo b l = l
  | [], _, _ => rfl
  | c :: cs, b, h => by
    rw [collapseGo_cons, if_neg (by simp [h c (by simp)])]
    rw [collapseGo_no_space cs false fun d hd => h d (by simp [hd])]

theorem collapseGo_mid_space :
    ∀ a : List Char, ∀ {b : List Char}, (∀ c ∈ a, isSpace c = false) →
      (∀ c ∈ b, isSpace c = false) →
      collapseGo false (a ++ ' ' :: b) = a ++ ' ' :: b
  | [], b, _, hb => by
    rw [List.nil_append, collapseGo_cons, if_pos (by decide), if_neg (by simp)]
    rw [collapseGo_no_space b true hb]
  | c :: a', b, ha, hb => by
    rw [List.cons_append, collapseGo_cons, if_neg (by simp [ha c (by simp)])]
    rw [collapseGo_mid_space a' (fun d hd => ha d (by simp [hd])) hb]

theorem normalize_digits_dot {a b : List Char} (ha : a ≠ []) (hb : b ≠ [])
    (hda : ∀ c ∈ a, isDigitCh c = true) (hdb : ∀ c ∈ b, isDigitCh c = true) :
    normalize_text (a ++ '.' :: b) = a ++ ' ' :: b := by
  have hhead : ∀ x : Char, ∀ w : List Char, ∀ c,
      (a ++ x :: w).head? = some c → isSpace c = false := by
    intro x w c hc
    cases a with
    | nil => exact absurd rfl ha
    | cons f fs =>
      rw [List.cons_append, List.head?_cons] at hc
      injection hc with hc
      rw [← hc]
      exact digit_not_space (hda f (by simp))
  have hlast : ∀ x : Char, ∀ c, (a ++ x :: b).getLast? = some c →
      isSpace c = false := by
    intro x c hc
    rw [List.getLast?_append_cons] at hc
    cases b with
    | nil => exact absurd rfl hb
    | cons e es =>
      rw [List.getLast?_cons_cons] at hc
      exact digit_not_space (hdb c (mem_of_getLast?_eq hc))
  rw [normalize_text_def, List.map_append, List.map_cons,
    map_eq_self_of a (fun c hc => (digit_fix (hda c hc)).1),
    map_eq_self_of b (fun c hc => (digit_fix (hdb c hc)).1),
    show replaceQuotes '.' = '.' from by decide,
    stripWs_eq_self (hhead '.' b) (hlast '.'),
    List.map_append, List.map_cons,
    map_eq_self_of a (fun c hc => (digit_fix (hda c hc)).2.1),
    map_eq_self_of b (fun c hc => (digit_fix (hdb c hc)).2.1),
    show pyLower '.' = '.' from by decide,
    List.map_append, List.map_cons,
    map_eq_self_of a (fun c hc => (digit_fix (hda c hc)).2.2),
    map_eq_self_of b (fun c hc => (digit_fix (hdb c hc)).2.2),
    show (if isKeep '.' then '.' else ' ') = ' ' from by decide]
  show stripWs (collapseGo false (a ++ ' ' :: b)) = a ++ ' ' :: b
  rw [collapseGo_mid_space a (fun c hc => digit_not_space (hda c hc))
    (fun c hc => digit_not_space (hdb c hc))]
  exact stripWs_eq_self (hhead ' ' b) (hlast ' ')

theorem normalize_neg_digits {d : List Char} (hd : d ≠ [])
    (hdd : ∀ c ∈ d, isDigitCh c = true) :
    normalize_text ('-' :: d) = d := by
  have hdrop : d.dropWhile isSpace = d := by
    cases d with
    | nil => rfl
    | cons e es =>
      rw [List.dropWhile_cons, if_neg (by simp [digit_not_space (hdd e (by simp))])]
  have hlastd : ∀ c, d.getLast? = some c → isSpace c = false :=
    fun c hc => digit_not_space (hdd c (mem_of_getLast?_eq hc))
  have hlast : ∀ c, ('-' :: d).getLast? = some c → isSpace c = false := by
    intro c hc
    cases d with
    | nil => exact absurd rfl hd
    | cons e es =>
      rw [List.getLast?_cons_cons] at hc
      exact hlastd c hc
  rw [normalize_text_def, List.map_cons,
    map_eq_self_of d (fun c hc => (digit_fix (hdd c hc)).1),
    show replaceQuotes '-' = '-' from by decide,
    stripWs_eq_self (fun c hc => by
      rw [List.head?_cons] at hc
      injection hc with hc
      rw [← hc]
      decide) hlast,
    List.map_cons,
    map_eq_self_of d (fun c hc => (digit_fix (hdd c hc)).2.1),
    show pyLower '-' = '-' from by decide,
    List.map_cons,
    map_eq_self_of d (fun c hc => (digit_fix (hdd c hc)).2.2),
    show (if isKeep '-' then '-' else ' ') = ' ' from by decide]
  show stripWs (collapseGo false (' ' :: d)) = d
  rw [collapseGo_cons, if_pos (by decide), if_neg (by simp),
    collapseGo_no_space d true (fun c hc => digit_not_space (hdd c hc))]
  unfold stripWs
  rw [List.dropWhile_cons, if_pos (by decide), hdrop,
    stripEnd_eq_self d hlastd]

theorem splitGo_nil (acc : List Char) :
    splitGo [] acc = if acc.isEmpty then [] else [acc.reverse] :=
  rfl

theorem splitGo_cons (c : Char) (cs acc : List Char) :
    splitGo (c :: cs) acc =
      if isSpace c then
        (if acc.isEmpty then splitGo cs [] else acc.reverse :: splitGo cs [])
      else splitGo cs (c :: acc) :=
  rfl

theorem splitGo_no_space :
    ∀ l acc : List Char, (∀ c ∈ l, isSpace c = false) →
      splitGo l acc =
        if (acc.reverse ++ l).isEmpty then [] else [acc.reverse ++ l]
  | [], acc, _ => by
    rw [splitGo_nil, List.append_nil]
    cases acc with
    | nil => rfl
    | cons x xs => simp
  | c :: cs, acc, h => by
    rw [splitGo_cons, if_neg (by simp [h c (by simp)])]
    rw [splitGo_no_space cs (c :: acc) fun d hd => h d (by simp [hd])]
    rw [List.reverse_cons, List.append_assoc, List.singleton_append]

theorem splitGo_space_split :
    ∀ a acc : List Char, ∀ {b : List Char}, (∀ c ∈ a, isSpace c = false) →
      acc.reverse ++ a ≠ [] →
      splitGo (a ++ ' ' :: b) acc = (acc.reverse ++ a) :: splitGo b []
  | [], acc, b, _, hne => by
    rw [List.nil_append, splitGo_cons, if_pos (by decide)]
    rw [List.append_nil] at hne
    rw [if_neg (by simpa using fun e => hne (by simpa using e)), List.append_nil]
  | c :: a', acc, b, h, _ => by
    rw [List.cons_append, splitGo_cons, if_neg (by simp [h c (by simp)])]
    rw [splitGo_space_split a' (c :: acc) (fun d hd => h d (by simp [hd]))
      (by simp)]
    rw [List.reverse_cons, List.append_assoc, List.singleton_append]

theorem splitWs_two_tokens {a b : List Char} (ha : a ≠ []) (hb : b ≠ [])
    (hsa : ∀ c ∈ a, isSpace c = false) (hsb : ∀ c ∈ b, isSpace c = false) :
    splitWs (a ++ ' ' :: b) = [a, b] := by
  show splitGo (a ++ ' ' :: b) [] = [a, b]
  rw [splitGo_space_split a [] hsa (by simpa using ha)]
  rw [splitGo_no_space b [] hsb]
  rw [List.reverse_nil, List.nil_append, List.nil_append,
    if_neg (by simpa using hb)]

theorem normShape_false_all :
    ∀ l : List Char, (∀ c ∈ l, isNormTok c = true) → normShape false l = true
  | [], _ => rfl
  | c :: cs, h => by
    rw [normShape_cons, if_pos (h c (by simp))]
    exact normShape_false_all cs fun d hd => h d (by simp [hd])

theorem normShape_false_append_space :
    ∀ a : List Char, ∀ {b : List Char}, (∀ c ∈ a, isNormTok c = true) →
      (∀ c ∈ b, isNormTok c = true) → b ≠ [] →
      normShape false (a ++ ' ' :: b) = true
  | [], b, _, hnb, hb => by
    rw [List.nil_append, normShape_cons, if_neg (by decide), if_pos rfl]
    cases b with
    | nil => exact absurd rfl hb
    | cons e es =>
      rw [normShape_cons, if_pos (hnb e (by simp))]
      simpa using normShape_false_all es fun d hd => hnb d (by simp [hd])
  | c :: a', b, hna, hnb, hb => by
    rw [List.cons_append, normShape_cons, if_pos (hna c (by simp))]
    exact normShape_false_append_space a' (fun d hd => hna d (by simp [hd]))
      hnb hb

theorem normalized_digits_space {a b : List Char} (ha : a ≠ []) (hb : b ≠ [])
    (hna : ∀ c ∈ a, isNormTok c = true) (hnb : ∀ c ∈ b, isNormTok c = true) :
    normalized (a ++ ' ' :: b) = true := by
  cases a with
  | nil => exact absurd rfl ha
  | cons c a' =>
    simp only [normalized, List.cons_append, List.isEmpty_cons, Bool.false_or]
    rw [normShape_cons, if_pos (hna c (by simp))]
    exact normShape_false_append_space a' (fun d hd => hna d (by simp [hd]))
      hnb hb

theorem lookupWord_digit_none {c : Char} {w' : List Char}
    (hc : isDigitCh c = true) : lookupWord (c :: w') = none := by
  have hfind : wordNums.find? (fun p => decide (p.1 = c :: w')) = none := by
    rw [List.find?_eq_none]
    intro x hx
    simp only [decide_eq_true_eq]
    intro hxw
    have hkey : wordNums.all (fun y =>
        match y.1 with
        | [] => false
        | k :: _ => decide (97 ≤ k.toNat ∧ k.toNat ≤ 122)) = true := by decide
    have h1 := List.all_eq_true.1 hkey x hx
    rw [hxw] at h1
    have h2 : decide (97 ≤ c.toNat ∧ c.toNat ≤ 122) = true := h1
    have h3 := of_decide_eq_true h2
    have h4 := digit_toNat hc
    omega
  unfold lookupWord
  rw [hfind]
  rfl

theorem mantSign_cons (c : Char) (r : List Char) :
    mantSign (c :: r) =
      if c = '+' then ((1 : Int), r)
      else if c = '-' then (-1, r)
      else (1, c :: r) :=
  rfl

theorem mantSign_digit {c : Char} (r : List Char) (hc : isDigitCh c = true) :
    mantSign (c :: r) = (1, c :: r) := by
  have hr := digit_toNat hc
  have hp : ('+').toNat = 43 := by decide
  have hm : ('-').toNat = 45 := by decide
  rw [mantSign_cons, if_neg (char_ne (by omega)), if_neg (char_ne (by omega))]

theorem parseExp_not_e {m : Dec} {c : Char} {r : List Char}
    (h : ¬(c = 'e' ∨ c = 'E')) : parseExp m (c :: r) = none := by
  simp only [parseExp]
  rw [if_neg h]

theorem pyAfterInt_nil (ip : List Char) (sgn : Int) :
    pyAfterInt ip [] sgn =
      if ip.isEmpty then none else some ⟨sgn * digitsVal ip, 0⟩ :=
  rfl

theorem pyAfterInt_cons (ip : List Char) (c : Char) (r2 : List Char)
    (sgn : Int) :
    pyAfterInt ip (c :: r2) sgn =
      if c = '.' then
        if ip.isEmpty && (r2.takeWhile isDigitCh).isEmpty then none
        else
          parseExp
            ⟨sgn * (digitsVal ip * 10 ^ (r2.takeWhile isDigitCh).length +
                digitsVal (r2.takeWhile isDigitCh)),
              (r2.takeWhile isDigitCh).length⟩
            (r2.drop (r2.takeWhile isDigitCh).length)
      else if ip.isEmpty then none
      else parseExp ⟨sgn * digitsVal ip, 0⟩ (c :: r2) :=
  rfl

theorem pyFloat_digits {d : List Char} (hne : d ≠ [])
    (hd : ∀ c ∈ d, isDigitCh c = true) :
    pyFloat d = some ⟨(digitsVal d : Int), 0⟩ := by
  obtain ⟨c, d', rfl⟩ : ∃ c d', d = c :: d' := by
    cases d with
    | nil => exact absurd rfl hne
    | cons c d' => exact ⟨c, d', rfl⟩
  have hstrip : stripWs (c :: d') = c :: d' :=
    stripWs_eq_self
      (fun e he => by
        rw [List.head?_cons] at he
        injection he with he
        rw [← he]
        exact digit_not_space (hd c (by simp)))
      (fun e he => digit_not_space (hd e (mem_of_getLast?_eq he)))
  unfold pyFloat
  rw [hstrip, mantSign_digit d' (hd c (by simp))]
  show pyFloatCore (c :: d') 1 = some ⟨(digitsVal (c :: d') : Int), 0⟩
  unfold pyFloatCore
  rw [takeWhile_all (c :: d') hd, List.drop_length, pyAfterInt_nil,
    if_neg (by simp), one_mul]

theorem pyFloat_mid_space_none {a b : List Char} (ha : a ≠ [])
    (hb : b ≠ []) (hda : ∀ c ∈ a, isDigitCh c = true)
    (hdb : ∀ c ∈ b, isDigitCh c = true) :
    pyFloat (a ++ ' ' :: b) = none := by
  obtain ⟨c, a', rfl⟩ : ∃ c a', a = c :: a' := by
    cases a with
    | nil => exact absurd rfl ha
    | cons c a' => exact ⟨c, a', rfl⟩
  have hstrip : stripWs ((c :: a') ++ ' ' :: b) = (c :: a') ++ ' ' :: b :=
    stripWs_eq_self
      (fun e he => by
        rw [List.cons_append, List.head?_cons] at he
        injection he with he
        rw [← he]
        exact digit_not_space (hda c (by simp)))
      (fun e he => by
        rw [List.getLast?_append_cons] at he
        cases b with
        | nil => exact absurd rfl hb
        | cons f fs =>
          rw [List.getLast?_cons_cons] at he
          exact digit_not_space (hdb e (mem_of_getLast?_eq he)))
  unfold pyFloat
  rw [hstrip]
  show pyFloatCore (mantSign (c :: (a' ++ ' ' :: b))).2
    (mantSign (c :: (a' ++ ' ' :: b))).1 = none
  rw [mantSign_digit (a' ++ ' ' :: b) (hda c (by simp))]
  show pyFloatCore ((c :: a') ++ ' ' :: b) 1 = none
  unfold pyFloatCore
  rw [takeWhile_append_stop (c :: a') ' ' b hda (by decide), List.drop_left,
    pyAfterInt_cons,
    if_neg (char_ne (by decide)), if_neg (by simp),
    parseExp_not_e (by
      rintro (h | h) <;> exact absurd (congrArg Char.toNat h) (by decide))]

/-- C4, counterexample: `normalize_text` does not strip the apostrophe of
"don't" — it replaces it with a space, so the result is "don t", which
contains a space the input did not have, and differs from "dont". -/
theorem normalize_dont_introduces_space :
    normalize_text "don't".data = "don t".data ∧
      ' ' ∈ normalize_text "don't".data ∧ ' ' ∉ "don't".data ∧
      normalize_text "don't".data ≠ "dont".data :=
  ⟨by decide, by decide, by decide, by decide⟩

/-- C4, amended: `normalize_text` lowercases, replaces every character that
is not an ASCII letter, digit or whitespace by a space, collapses whitespace
runs to single spaces, trims both ends, and yields `""` on `None` or empty
input; every output character is an ASCII digit, lowercase letter or single
interior space, and an interior apostrophe becomes a space
(`"Don’t"` ↦ `"don t"`). -/
theorem normalize_amended_shape :
    normalize_text_py none = [] ∧
      normalize_text_py (some "".data) = [] ∧
      (∀ l : List Char, ∀ c ∈ normalize_text l,
        isDigitCh c = true ∨ isLowerCh c = true ∨ c = ' ') ∧
      (∀ l : List Char, normalized (normalize_text l) = true) ∧
      normalize_text "Don’t".data = "don t".data := by
  refine ⟨rfl, rfl, ?_, normalized_normalize_text, by decide⟩
  intro l c hc
  have hn := normalized_normalize_text l
  rcases he : normalize_text l with _ | ⟨d, ds⟩
  · rw [he] at hc
    cases hc
  · rw [he] at hn hc
    have hs : normShape true (d :: ds) = true := by
      simpa [normalized] using hn
    rcases normShape_mem (d :: ds) true hs c hc with h | h
    · simp only [isNormTok, Bool.or_eq_true] at h
      tauto
    · exact Or.inr (Or.inr h)

theorem is_numeric_def (s : List Char) :
    is_numeric s =
      if (normalize_text s).isEmpty then none
      else
        match pyFloat (normalize_text s) with
        | some v => some v
        | none =>
          match word_number_to_int (normalize_text s) with
          | some wn => some ⟨wn, 0⟩
          | none => none :=
  rfl

/-- C10: because `normalize_text` turns `.` and `-` into whitespace,
`is_numeric` yields `none` on every fractional decimal string
`<digits>.<digits>` and yields the absolute value on every negative integer
string `-<digits>`; hence the numeric rule never credits fractional-decimal
answers and equates a negative user answer with its positive canonical
counterpart (`match("-5", ["five"])` is accepted). -/
theorem is_numeric_drops_sign_and_dot (a b d : List Char)
    (ha : a ≠ []) (hb : b ≠ []) (hd : d ≠ [])
    (hda : ∀ c ∈ a, isDigitCh c = true) (hdb : ∀ c ∈ b, isDigitCh c = true)
    (hdd : ∀ c ∈ d, isDigitCh c = true) :
    is_numeric (a ++ '.' :: b) = none ∧
    is_numeric ('-' :: d) = some ⟨(digitsVal d : Int), 0⟩ ∧
    Dec.toRat ⟨(digitsVal d : Int), 0⟩ = (digitsVal d : ℚ) ∧
    (∀ fuzzy : List Char → List Char → ℚ,
      matchAnswer fuzzy "-5".data ["five".data] =
        (true, some "five".data)) := by
  refine ⟨?_, ?_, by simp [Dec.toRat], ?_⟩
  · rw [is_numeric_def, normalize_digits_dot ha hb hda hdb]
    have hie : ¬((a ++ ' ' :: b).isEmpty = true) := by
      cases a with
      | nil => exact absurd rfl ha
      | cons c a' => simp
    rw [if_neg hie, pyFloat_mid_space_none ha hb hda hdb]
    have hw : word_number_to_int (a ++ ' ' :: b) = none := by
      rw [word_number_to_int_def,
        normalize_text_eq_self (normalized_digits_space ha hb
          (fun c hc => digit_isNormTok (hda c hc))
          (fun c hc => digit_isNormTok (hdb c hc))),
        if_neg hie,
        splitWs_two_tokens ha hb
          (fun c hc => digit_not_space (hda c hc))
          (fun c hc => digit_not_space (hdb c hc))]
      obtain ⟨c, a', rfl⟩ : ∃ c a', a = c :: a' := by
        cases a with
        | nil => exact absurd rfl ha
        | cons c a' => exact ⟨c, a', rfl⟩
      rw [wnGo_cons2, lookupWord_digit_none (hda c (by simp))]
    rw [hw]
  · rw [is_numeric_def, normalize_neg_digits hd hdd]
    have hie : ¬(d.isEmpty = true) := by
      cases d with
      | nil => exact absurd rfl hd
      | cons c d' => simp
    rw [if_neg hie, pyFloat_digits hd hdd]
  · intro fuzzy
    have h : tryCa fuzzy "-5".data "five".data = some 3 := by
      rw [tryCa_def]
      rw [if_neg (by decide), if_neg (by decide), if_pos (by decide)]
    rw [matchAnswer_cons, h]

/-- C10 witness: "3.5" is rejected and "-5" parses to 5. -/
theorem is_numeric_drops_sign_and_dot_witness :
    is_numeric ("3".data ++ '.' :: "5".data) = none ∧
      is_numeric ('-' :: "5".data) = some ⟨(digitsVal "5".data : Int), 0⟩ :=
  ⟨(is_numeric_drops_sign_and_dot "3".data "5".data "5".data (by decide)
      (by decide) (by decide) (by decide) (by decide) (by decide)).1,
   (is_numeric_drops_sign_and_dot "3".data "5".data "5".data (by decide)
      (by decide) (by decide) (by decide) (by decide) (by decide)).2.1⟩
